import Mathlib

set_option maxRecDepth 100000

/-!
# Verification of the kvlog versioned key-value store

Shallow embedding of `kvlog.go` (package `kvlog`): a time-versioned
key-value store backed by two collections,

* `kvlog` — history entries `{k, ts, v, vid}` with a unique index on
  `(k, ts)`, and
* `value` — content-addressed value records `{_id, v}`.

The mongo collections are modelled as lists of records; `FindOne` with a
sort becomes an explicit max/min selection over the filtered list, and
`InsertOne` becomes an append that fails exactly when the unique
`(k, ts)` index is violated.  The SHA-1 content hash is a parameter
`hash : String → String` of every operation that uses it; theorems that
need collision-freedom take injectivity as a hypothesis, mirroring the
design assumption that content hashes of distinct payloads never collide.
Timestamps (`time.Now().UnixNano()`) are an explicit `Int` argument of
`Set`, since the model is deterministic.
-/

namespace KVLogModel

/-- `maxInlineValueLength`: max number of characters in value to store
inline in `kvlog.v` (kvlog.go line 19). -/
def maxInlineValueLength : Nat := 200

/-- Go's `unicode.IsSpace`: the characters `strings.TrimSpace` strips. -/
def goIsSpace (c : Char) : Bool :=
  c == ' ' || c == '\t' || c == '\n' || c == Char.ofNat 0x0B ||
  c == Char.ofNat 0x0C || c == '\r' || c == Char.ofNat 0x85 ||
  c == Char.ofNat 0xA0 || c == Char.ofNat 0x1680 ||
  (0x2000 ≤ c.toNat && c.toNat ≤ 0x200A) ||
  c.toNat == 0x2028 || c.toNat == 0x2029 || c.toNat == 0x202F ||
  c.toNat == 0x205F || c.toNat == 0x3000

/-- Go's `strings.TrimSpace`: drop leading and trailing whitespace. -/
def trimSpace (s : String) : String :=
  ⟨((s.data.dropWhile goIsSpace).reverse.dropWhile goIsSpace).reverse⟩

/-- A history entry: `type KVLog struct { Key, TS, Val, vid }`
(kvlog.go lines 36–41).  `val` is the inline value (bson `v`), `vid` the
content-hash reference into the value collection (bson `vid`); exactly
one of the two is meant to be populated. -/
structure KVLog where
  key : String
  ts : Int
  val : String
  vid : String
deriving DecidableEq, Repr

/-- A value record: `type Value struct { ID, Val }` (kvlog.go lines
43–46), stored in the `value` collection keyed by content hash. -/
structure Value where
  id : String
  val : String
deriving DecidableEq, Repr

/-- The two collections of the store (`kc` and `vc` of `KDB`,
kvlog.go lines 28–34); connection plumbing is out of scope. -/
structure KDB where
  kc : List KVLog
  vc : List Value
deriving DecidableEq, Repr

/-- The store with both collections empty. -/
def emptyKDB : KDB := ⟨[], []⟩

/-- The entry with maximum timestamp: what `FindOne` returns under sort
`{ts: -1}` (ties broken towards the earlier element, though the unique
`(k, ts)` index makes same-key ties unreachable). -/
def maxTsEntry (l : List KVLog) : Option KVLog :=
  l.foldl
    (fun acc e =>
      match acc with
      | none => some e
      | some b => if e.ts > b.ts then some e else some b)
    none

/-- The entry with minimum timestamp: what `FindOne` returns under sort
`{ts: 1}`. -/
def minTsEntry (l : List KVLog) : Option KVLog :=
  l.foldl
    (fun acc e =>
      match acc with
      | none => some e
      | some b => if e.ts < b.ts then some e else some b)
    none

/-- `findKVLogLatest` (kvlog.go lines 110–122): `FindOne` on the kvlog
collection filtered by key, sorted by `ts` descending — the entry for
`key` with maximum timestamp, or `none` (`mongo.ErrNoDocuments`). -/
def findKVLogLatest (kdb : KDB) (key : String) : Option KVLog :=
  maxTsEntry (kdb.kc.filter (fun e => e.key == key))

/-- `findKVLogAfter` (kvlog.go lines 125–140): `FindOne` filtered by key
and `ts >= ts₀` (`$gte`), sorted by `ts` ascending — the entry for `key`
with minimum timestamp `≥ ts₀`, or `none`. -/
def findKVLogAfter (kdb : KDB) (key : String) (ts : Int) : Option KVLog :=
  minTsEntry (kdb.kc.filter (fun e => e.key == key && ts ≤ e.ts))

/-- `findValue` (kvlog.go lines 143–151): point lookup of the value
record with `_id == vid`, or `none` (`mongo.ErrNoDocuments`). -/
def findValue (kdb : KDB) (vid : String) : Option String :=
  (kdb.vc.find? (fun v => v.id == vid)).map Value.val

/-- Result of `Set`: success, or the duplicate-key error raised by the
unique `(k, ts)` index on `InsertOne` (surfaced, never retried).  Either
way the store as left by the call is carried along, so that theorems can
speak about the state after a failed call. -/
inductive SetResult where
  | ok (kdb : KDB)
  | dupErr (kdb : KDB)
deriving DecidableEq, Repr

/-- The store a `Set` call leaves behind, on success or failure. -/
def SetResult.state : SetResult → KDB
  | .ok kdb => kdb
  | .dupErr kdb => kdb

/-- `InsertOne` on the kvlog collection under the unique `k_ts` index
(created in `createIndexes`, kvlog.go lines 54–65): fails iff an entry
with the same `(key, ts)` already exists. -/
def insertKVLog (kdb : KDB) (e : KVLog) : SetResult :=
  if kdb.kc.any (fun x => x.key == e.key && x.ts == e.ts) then
    .dupErr kdb
  else
    .ok ⟨kdb.kc ++ [e], kdb.vc⟩

/-- The value-record phase of `Set` (kvlog.go lines 156–178): for a
trimmed value `val` longer than `maxInlineValueLength`, compute
`vid = hash(val)` and find-or-insert the value record `{vid, val}`;
short values skip the value collection entirely.  Returns the `vid`
(`""` for inline values) and the resulting value collection. -/
def valuePhase (hash : String → String) (kdb : KDB) (val : String) :
    String × List Value :=
  if val.utf8ByteSize > maxInlineValueLength then
    let vid := hash val
    match findValue kdb vid with
    | some _ => (vid, kdb.vc)
    | none => (vid, kdb.vc ++ [⟨vid, val⟩])
  else ("", kdb.vc)

/-- The candidate entry `Set` inserts (kvlog.go lines 199–204): value
carried inline iff `vid == ""`. -/
def mkEntry (hash : String → String) (key val : String) (now : Int) : KVLog :=
  let vid :=
    if val.utf8ByteSize > maxInlineValueLength then hash val else ""
  ⟨key, now, if vid == "" then val else "", vid⟩

/-- The dedup test of `Set` (kvlog.go lines 186–194): the latest entry
already holds the candidate — same `vid` for reference-based values, or
identical inline value. -/
def sameAsLatest (vid val : String) (latest : KVLog) : Bool :=
  (vid != "" && latest.vid == vid) || (vid == "" && latest.val == val)

/-- `Set` (kvlog.go lines 154–211): trim the value; run the value-record
phase; then fetch the latest entry for the key and no-op when it already
holds the candidate (same `vid` for reference values, identical inline
value otherwise); otherwise insert a new entry stamped `now`. -/
def Set (hash : String → String) (kdb : KDB) (key v : String) (now : Int) :
    SetResult :=
  let val := trimSpace v
  let vid := (valuePhase hash kdb val).1
  let kdb' : KDB := ⟨kdb.kc, (valuePhase hash kdb val).2⟩
  match findKVLogLatest kdb' key with
  | some latest =>
      if sameAsLatest vid val latest then
        .ok kdb'
      else
        insertKVLog kdb' (mkEntry hash key val now)
  | none =>
      insertKVLog kdb' (mkEntry hash key val now)

/-- Read errors: `mongo.ErrNoDocuments` from a failed lookup. -/
inductive KVError where
  | notFound
deriving DecidableEq, Repr

instance {ε α : Type} [DecidableEq ε] [DecidableEq α] :
    DecidableEq (Except ε α) := fun x y =>
  match x, y with
  | .ok a, .ok b =>
      if h : a = b then isTrue (by rw [h]) else isFalse (fun hc => h (Except.ok.inj hc))
  | .error a, .error b =>
      if h : a = b then isTrue (by rw [h]) else isFalse (fun hc => h (Except.error.inj hc))
  | .ok _, .error _ => isFalse (fun hc => Except.noConfusion hc)
  | .error _, .ok _ => isFalse (fun hc => Except.noConfusion hc)

/-- How `Get` and `GetAt` resolve a fetched entry (kvlog.go lines
219–222 and 231–234): return the inline value when `vid == ""`,
otherwise look `vid` up in the value collection. -/
def resolveVal (kdb : KDB) (e : KVLog) : Except KVError String :=
  if e.vid == "" then .ok e.val
  else
    match findValue kdb e.vid with
    | none => .error .notFound
    | some v => .ok v

/-- `Get` (kvlog.go lines 214–223): latest entry for the key, resolved
via `resolveVal`. -/
def Get (kdb : KDB) (key : String) : Except KVError String :=
  match findKVLogLatest kdb key with
  | none => .error .notFound
  | some e => resolveVal kdb e

/-- `GetAt` (kvlog.go lines 226–235): first entry for the key at or
after `ts`, resolved exactly as `Get` resolves the latest entry. -/
def GetAt (kdb : KDB) (key : String) (ts : Int) : Except KVError String :=
  match findKVLogAfter kdb key ts with
  | none => .error .notFound
  | some e => resolveVal kdb e

/-- Insert into a list sorted by timestamp descending, keeping earlier
elements first among equal timestamps. -/
def insertTsDesc (e : KVLog) : List KVLog → List KVLog
  | [] => [e]
  | x :: xs => if e.ts > x.ts then e :: x :: xs else x :: insertTsDesc e xs

/-- Sort history entries by timestamp descending — the cursor order of
`Find` with sort `{ts: -1}`. -/
def sortTsDesc (es : List KVLog) : List KVLog :=
  es.foldr insertTsDesc []

/-- An iterator (kvlog.go lines 48–52): the store it resolves values
against, the remaining cursor contents, and the sticky error reported
by `Err()`. -/
structure Iterator where
  kdb : KDB
  entries : List KVLog
  err : Option KVError
deriving DecidableEq, Repr

/-- `GetIterator` (kvlog.go lines 241–253): a cursor over all entries
for `key` in reverse timestamp order (latest first). -/
def GetIterator (kdb : KDB) (key : String) : Iterator :=
  ⟨kdb, sortTsDesc (kdb.kc.filter (fun e => e.key == key)), none⟩

/-- `Iterator.Next` (kvlog.go lines 262–285): advance the cursor; if the
decoded entry's inline value is empty, resolve its `vid` through the
value collection, recording a lookup failure in `err` and returning
`none`.  Returns the produced record (if any) and the advanced
iterator. -/
def Iterator.next (it : Iterator) : Option KVLog × Iterator :=
  match it.entries with
  | [] => (none, it)
  | e :: rest =>
      if e.val == "" then
        match findValue it.kdb e.vid with
        | none => (none, ⟨it.kdb, rest, some .notFound⟩)
        | some v => (some { e with val := v }, ⟨it.kdb, rest, it.err⟩)
      else
        (some e, ⟨it.kdb, rest, it.err⟩)

/-- Fuelled worker for `Iterator.drain`; each `next` consumes one cursor
entry, so fuel `it.entries.length` is always enough. -/
def Iterator.drainAux : Nat → Iterator → List KVLog × Iterator
  | 0, it => ([], it)
  | n + 1, it =>
      match it.next with
      | (none, it') => ([], it')
      | (some e, it') =>
          let (rest, itF) := Iterator.drainAux n it'
          (e :: rest, itF)

/-- Drain an iterator: repeatedly call `next` until it returns `none`
(end of cursor or error), collecting the produced records — the way the
tests consume `Iterator` (kvlog_test.go). -/
def Iterator.drain (it : Iterator) : List KVLog × Iterator :=
  Iterator.drainAux it.entries.length it

/-- What `Iterator.next` produces for a single decoded entry: entries
with an empty inline value are resolved through the value collection,
all others pass through unchanged. -/
def resolveNext (kdb : KDB) (e : KVLog) : Option KVLog :=
  if e.val == "" then (findValue kdb e.vid).map (fun v => { e with val := v })
  else some e

/-- Run a sequence of `Set` calls for one key (value, timestamp pairs),
stopping with `none` on the first duplicate-key failure. -/
def setList (hash : String → String) (kdb : KDB) (key : String) :
    List (String × Int) → Option KDB
  | [] => some kdb
  | (v, t) :: rest =>
      match Set hash kdb key v t with
      | .ok kdb' => setList hash kdb' key rest
      | .dupErr _ => none

/-- A concrete stand-in content hash used by witnesses and
counterexamples: injective and never empty, the two properties the
design assumes of the hex-encoded SHA-1 digest. -/
def testHash (s : String) : String := "h" ++ s

/-- A 201-character payload: one character over the inline threshold,
used by witnesses and counterexamples. -/
def longA : String := ⟨List.replicate 201 'a'⟩



theorem maxTsEntry_cons_spec :
    ∀ (xs : List KVLog) (b : KVLog),
      ∃ c, maxTsEntry (b :: xs) = some c ∧ (c = b ∨ c ∈ xs) ∧ b.ts ≤ c.ts ∧
        ∀ x ∈ xs, x.ts ≤ c.ts := by
  intro xs
  induction xs with
  | nil => exact fun b => ⟨b, rfl, Or.inl rfl, le_refl _, by simp⟩
  | cons x xs ih =>
      intro b
      have hstep : maxTsEntry (b :: x :: xs) =
          maxTsEntry ((if x.ts > b.ts then x else b) :: xs) := by
        simp only [maxTsEntry, List.foldl_cons]
        split <;> rfl
      obtain ⟨c, hc, hmem, hle, hall⟩ := ih (if x.ts > b.ts then x else b)
      refine ⟨c, hstep ▸ hc, ?_, ?_, ?_⟩
      · rcases hmem with h | h
        · split at h
          · subst h; exact Or.inr (List.mem_cons_self _ _)
          · exact Or.inl h
        · exact Or.inr (List.mem_cons_of_mem _ h)
      · split at hle
        · omega
        · exact hle
      · intro y hy
        rcases List.mem_cons.mp hy with rfl | hy'
        · split at hle
          · exact hle
          · omega
        · exact hall y hy'

theorem maxTsEntry_spec {l : List KVLog} {c : KVLog} (h : maxTsEntry l = some c) :
    c ∈ l ∧ ∀ x ∈ l, x.ts ≤ c.ts := by
  cases l with
  | nil => simp [maxTsEntry] at h
  | cons b xs =>
      obtain ⟨c', hc', hmem, hle, hall⟩ := maxTsEntry_cons_spec xs b
      rw [hc'] at h
      injection h with h
      subst h
      refine ⟨?_, ?_⟩
      · rcases hmem with rfl | hm
        · exact List.mem_cons_self _ _
        · exact List.mem_cons_of_mem _ hm
      · intro x hx
        rcases List.mem_cons.mp hx with rfl | hx'
        · exact hle
        · exact hall x hx'

theorem maxTsEntry_eq_none {l : List KVLog} : maxTsEntry l = none ↔ l = [] := by
  cases l with
  | nil => simp [maxTsEntry]
  | cons b xs =>
      obtain ⟨c, hc, -⟩ := maxTsEntry_cons_spec xs b
      simp [hc]

theorem maxTsEntry_unique {l : List KVLog} {e : KVLog} (he : e ∈ l)
    (hmax : ∀ x ∈ l, x ≠ e → x.ts < e.ts) : maxTsEntry l = some e := by
  cases h : maxTsEntry l with
  | none => rw [maxTsEntry_eq_none.mp h] at he; cases he
  | some c =>
      obtain ⟨hmem, hall⟩ := maxTsEntry_spec h
      by_cases hc : c = e
      · subst hc; rfl
      · have h1 := hmax c hmem hc
        have h2 := hall e he
        omega



theorem minTsEntry_cons_spec :
    ∀ (xs : List KVLog) (b : KVLog),
      ∃ c, minTsEntry (b :: xs) = some c ∧ (c = b ∨ c ∈ xs) ∧ c.ts ≤ b.ts ∧
        ∀ x ∈ xs, c.ts ≤ x.ts := by
  intro xs
  induction xs with
  | nil => exact fun b => ⟨b, rfl, Or.inl rfl, le_refl _, by simp⟩
  | cons x xs ih =>
      intro b
      have hstep : minTsEntry (b :: x :: xs) =
          minTsEntry ((if x.ts < b.ts then x else b) :: xs) := by
        simp only [minTsEntry, List.foldl_cons]
        split <;> rfl
      obtain ⟨c, hc, hmem, hle, hall⟩ := ih (if x.ts < b.ts then x else b)
      refine ⟨c, hstep ▸ hc, ?_, ?_, ?_⟩
      · rcases hmem with h | h
        · split at h
          · subst h; exact Or.inr (List.mem_cons_self _ _)
          · exact Or.inl h
        · exact Or.inr (List.mem_cons_of_mem _ h)
      · split at hle
        · omega
        · exact hle
      · intro y hy
        rcases List.mem_cons.mp hy with rfl | hy'
        · split at hle
          · exact hle
          · omega
        · exact hall y hy'

theorem minTsEntry_spec {l : List KVLog} {c : KVLog} (h : minTsEntry l = some c) :
    c ∈ l ∧ ∀ x ∈ l, c.ts ≤ x.ts := by
  cases l with
  | nil => simp [minTsEntry] at h
  | cons b xs =>
      obtain ⟨c', hc', hmem, hle, hall⟩ := minTsEntry_cons_spec xs b
      rw [hc'] at h
      injection h with h
      subst h
      refine ⟨?_, ?_⟩
      · rcases hmem with rfl | hm
        · exact List.mem_cons_self _ _
        · exact List.mem_cons_of_mem _ hm
      · intro x hx
        rcases List.mem_cons.mp hx with rfl | hx'
        · exact hle
        · exact hall x hx'

theorem minTsEntry_eq_none {l : List KVLog} : minTsEntry l = none ↔ l = [] := by
  cases l with
  | nil => simp [minTsEntry]
  | cons b xs =>
      obtain ⟨c, hc, -⟩ := minTsEntry_cons_spec xs b
      simp [hc]

theorem minTsEntry_unique {l : List KVLog} {e : KVLog} (he : e ∈ l)
    (hmin : ∀ x ∈ l, x ≠ e → e.ts < x.ts) : minTsEntry l = some e := by
  cases h : minTsEntry l with
  | none => rw [minTsEntry_eq_none.mp h] at he; cases he
  | some c =>
      obtain ⟨hmem, hall⟩ := minTsEntry_spec h
      by_cases hc : c = e
      · subst hc; rfl
      · have h1 := hmin c hmem hc
        have h2 := hall e he
        omega

theorem findKVLogLatest_eq (kc : List KVLog) (vc : List Value) (key : String) :
    findKVLogLatest ⟨kc, vc⟩ key = maxTsEntry (kc.filter (fun e => e.key == key)) := rfl

theorem findKVLogAfter_eq (kc : List KVLog) (vc : List Value) (key : String) (ts : Int) :
    findKVLogAfter ⟨kc, vc⟩ key ts =
      minTsEntry (kc.filter (fun e => e.key == key && ts ≤ e.ts)) := rfl

theorem findValue_some_mem {kdb : KDB} {vid w : String}
    (h : findValue kdb vid = some w) :
    ∃ r, r ∈ kdb.vc ∧ r.id = vid ∧ r.val = w := by
  unfold findValue at h
  obtain ⟨r, hr, hval⟩ := Option.map_eq_some'.mp h
  exact ⟨r, List.mem_of_find?_eq_some hr, by simpa using List.find?_some hr, hval⟩

theorem findValue_none {kdb : KDB} {vid : String}
    (h : findValue kdb vid = none) : ∀ r ∈ kdb.vc, r.id ≠ vid := by
  unfold findValue at h
  have := Option.map_eq_none'.mp h
  intro r hr
  have := List.find?_eq_none.mp this r hr
  simpa using this

theorem findValue_of_mem {hash : String → String} (hinj : Function.Injective hash)
    {kdb : KDB} (hWF : ∀ r ∈ kdb.vc, r.id = hash r.val) {w : String}
    (hmem : (⟨hash w, w⟩ : Value) ∈ kdb.vc) : findValue kdb (hash w) = some w := by
  cases h : findValue kdb (hash w) with
  | none => exact absurd rfl (findValue_none h _ hmem)
  | some u =>
      obtain ⟨r, hr, hid, hval⟩ := findValue_some_mem h
      have : hash r.val = hash w := by rw [← hWF r hr, hid]
      rw [hval] at this
      rw [hinj this]



theorem valuePhase_short (hash : String → String) (kdb : KDB) (val : String)
    (h : ¬ val.utf8ByteSize > maxInlineValueLength) :
    valuePhase hash kdb val = ("", kdb.vc) := by
  simp [valuePhase, h]

theorem valuePhase_fst (hash : String → String) (kdb : KDB) (val : String) :
    (valuePhase hash kdb val).1 =
      if val.utf8ByteSize > maxInlineValueLength then hash val else "" := by
  by_cases hlong : val.utf8ByteSize > maxInlineValueLength
  · rw [if_pos hlong]
    cases h : findValue kdb (hash val) <;> simp [valuePhase, hlong, h]
  · rw [if_neg hlong]
    simp [valuePhase, hlong]

theorem valuePhase_vc_cases (hash : String → String) (kdb : KDB) (val : String) :
    (valuePhase hash kdb val).2 = kdb.vc ∨
      (valuePhase hash kdb val).2 = kdb.vc ++ [⟨hash val, val⟩] := by
  by_cases hlong : val.utf8ByteSize > maxInlineValueLength
  · cases h : findValue kdb (hash val)
    · exact Or.inr (by simp [valuePhase, hlong, h])
    · exact Or.inl (by simp [valuePhase, hlong, h])
  · exact Or.inl (by simp [valuePhase, hlong])

theorem valuePhase_WF {hash : String → String} {kdb : KDB} (val : String)
    (hWF : ∀ r ∈ kdb.vc, r.id = hash r.val) :
    ∀ r ∈ (valuePhase hash kdb val).2, r.id = hash r.val := by
  rcases valuePhase_vc_cases hash kdb val with h | h <;> rw [h]
  · exact hWF
  · intro r hr
    rcases List.mem_append.mp hr with h' | h'
    · exact hWF r h'
    · rcases List.mem_singleton.mp h' with rfl
      rfl

theorem valuePhase_mem_mono (hash : String → String) (kdb : KDB) (val : String) :
    ∀ r ∈ kdb.vc, r ∈ (valuePhase hash kdb val).2 := by
  rcases valuePhase_vc_cases hash kdb val with h | h <;> rw [h]
  · exact fun r hr => hr
  · exact fun r hr => List.mem_append_left _ hr

theorem valuePhase_mem_long {val : String} {hash : String → String}
    (hinj : Function.Injective hash) {kdb : KDB}
    (hWF : ∀ r ∈ kdb.vc, r.id = hash r.val)
    (hlong : val.utf8ByteSize > maxInlineValueLength) :
    (⟨hash val, val⟩ : Value) ∈ (valuePhase hash kdb val).2 := by
  cases h : findValue kdb (hash val) with
  | none => simp [valuePhase, hlong, h]
  | some u =>
      obtain ⟨r, hr, hid, hval⟩ := findValue_some_mem h
      have : r.val = val := hinj (by rw [← hWF r hr, hid])
      have hreq : r = ⟨hash val, val⟩ := by
        cases r
        simp_all
      rw [hreq] at hr
      simpa [valuePhase, hlong, h] using hr

theorem findValue_vc_only (kc kc' : List KVLog) (vc : List Value) (vid : String) :
    findValue ⟨kc, vc⟩ vid = findValue ⟨kc', vc⟩ vid := rfl

theorem valuePhase_findValue_long (hash : String → String) (kdb : KDB)
    {val : String} (hlong : val.utf8ByteSize > maxInlineValueLength)
    (kc' : List KVLog) :
    (findValue ⟨kc', (valuePhase hash kdb val).2⟩ (hash val)).isSome := by
  cases h : findValue kdb (hash val) with
  | none =>
      have hn : kdb.vc.find? (fun r => r.id == hash val) = none := by
        unfold findValue at h
        exact Option.map_eq_none'.mp h
      simp [valuePhase, hlong, h, findValue, List.find?_append, hn]
  | some u =>
      have h2 := h
      unfold findValue at h2
      simp [valuePhase, hlong, h, findValue, h2]

theorem valuePhase_idem (hash : String → String) (kdb : KDB) (val : String)
    (kc' : List KVLog) :
    valuePhase hash ⟨kc', (valuePhase hash kdb val).2⟩ val = valuePhase hash kdb val := by
  by_cases hlong : val.utf8ByteSize > maxInlineValueLength
  · have hfind := valuePhase_findValue_long hash kdb hlong kc'
    have h1 : (valuePhase hash kdb val).1 = hash val := by
      rw [valuePhase_fst, if_pos hlong]
    rcases hp : valuePhase hash kdb val with ⟨vid1, V⟩
    rw [hp] at hfind h1
    obtain ⟨u, hu⟩ := Option.isSome_iff_exists.mp hfind
    simp only at hu h1 ⊢
    simp [valuePhase, hlong, hu, h1]
  · rw [valuePhase_short hash _ _ hlong, valuePhase_short hash kdb _ hlong]



theorem mkEntry_key (hash : String → String) (k w : String) (t : Int) :
    (mkEntry hash k w t).key = k := by
  simp [mkEntry]

theorem mkEntry_ts (hash : String → String) (k w : String) (t : Int) :
    (mkEntry hash k w t).ts = t := by
  simp [mkEntry]

theorem mkEntry_long (hash : String → String) {w : String} (k : String) (t : Int)
    (hlong : w.utf8ByteSize > maxInlineValueLength) (hne : hash w ≠ "") :
    mkEntry hash k w t = ⟨k, t, "", hash w⟩ := by
  simp [mkEntry, hlong, hne]

theorem mkEntry_short (hash : String → String) {w : String} (k : String) (t : Int)
    (hshort : ¬ w.utf8ByteSize > maxInlineValueLength) :
    mkEntry hash k w t = ⟨k, t, w, ""⟩ := by
  simp [mkEntry, hshort]

theorem mkEntry_mx {hash : String → String} {k w : String} {t : Int}
    (h : (mkEntry hash k w t).vid ≠ "") : (mkEntry hash k w t).val = "" := by
  by_cases hlong : w.utf8ByteSize > maxInlineValueLength
  · by_cases hne : hash w = ""
    · simp [mkEntry, hlong, hne] at h
    · simp [mkEntry, hlong, hne]
  · simp [mkEntry, hlong] at h

theorem insertKVLog_no_dup {kdb : KDB} {e : KVLog}
    (h : ∀ x ∈ kdb.kc, x.key = e.key → x.ts ≠ e.ts) :
    insertKVLog kdb e = .ok ⟨kdb.kc ++ [e], kdb.vc⟩ := by
  have hany : (kdb.kc.any fun x => x.key == e.key && x.ts == e.ts) = false := by
    rw [List.any_eq_false]
    intro x hx
    simp only [Bool.and_eq_true, beq_iff_eq, not_and]
    exact h x hx
  simp [insertKVLog, hany]

theorem Set_state_vc (hash : String → String) (kdb : KDB) (key v : String) (now : Int) :
    (Set hash kdb key v now).state.vc = (valuePhase hash kdb (trimSpace v)).2 := by
  simp only [Set, insertKVLog]
  split
  · split
    · rfl
    · split <;> rfl
  · split <;> rfl



theorem findKVLogLatest_state (kdb : KDB) (vc' : List Value) (key : String) :
    findKVLogLatest ⟨kdb.kc, vc'⟩ key = findKVLogLatest kdb key := rfl

theorem findKVLogAfter_state (kdb : KDB) (vc' : List Value) (key : String) (ts : Int) :
    findKVLogAfter ⟨kdb.kc, vc'⟩ key ts = findKVLogAfter kdb key ts := rfl

theorem Set_eq_noop {hash : String → String} {kdb : KDB} {key v : String}
    {latest : KVLog} (now : Int)
    (hl : findKVLogLatest kdb key = some latest)
    (hs : sameAsLatest (valuePhase hash kdb (trimSpace v)).1 (trimSpace v) latest = true) :
    Set hash kdb key v now = .ok ⟨kdb.kc, (valuePhase hash kdb (trimSpace v)).2⟩ := by
  simp only [Set, findKVLogLatest_state, hl, hs, if_true]

theorem Set_eq_insert_of_latest {hash : String → String} {kdb : KDB} {key v : String}
    {latest : KVLog} (now : Int)
    (hl : findKVLogLatest kdb key = some latest)
    (hs : sameAsLatest (valuePhase hash kdb (trimSpace v)).1 (trimSpace v) latest = false) :
    Set hash kdb key v now =
      insertKVLog ⟨kdb.kc, (valuePhase hash kdb (trimSpace v)).2⟩
        (mkEntry hash key (trimSpace v) now) := by
  simp only [Set, findKVLogLatest_state, hl, hs]
  simp

theorem Set_eq_insert_of_none {hash : String → String} {kdb : KDB} {key v : String}
    (now : Int) (hl : findKVLogLatest kdb key = none) :
    Set hash kdb key v now =
      insertKVLog ⟨kdb.kc, (valuePhase hash kdb (trimSpace v)).2⟩
        (mkEntry hash key (trimSpace v) now) := by
  simp only [Set, findKVLogLatest_state, hl]

theorem Get_none {kdb : KDB} {key : String} (h : ∀ e ∈ kdb.kc, e.key ≠ key) :
    Get kdb key = .error .notFound := by
  have hf : kdb.kc.filter (fun e => e.key == key) = [] := by
    rw [List.filter_eq_nil_iff]
    intro e he
    simpa using h e he
  have : findKVLogLatest kdb key = none := by
    show maxTsEntry _ = none
    rw [hf]
    rfl
  simp [Get, this]

theorem Get_unique_max {kdb : KDB} {key : String} {e : KVLog}
    (he : e ∈ kdb.kc) (hk : e.key = key)
    (hmax : ∀ x ∈ kdb.kc, x.key = key → x ≠ e → x.ts < e.ts) :
    Get kdb key = resolveVal kdb e := by
  have hlat : findKVLogLatest kdb key = some e := by
    apply maxTsEntry_unique
    · exact List.mem_filter.mpr ⟨he, by simpa using hk⟩
    · intro x hx hne
      have hx' := List.mem_filter.mp hx
      exact hmax x hx'.1 (by simpa using hx'.2) hne
  simp [Get, hlat]

theorem GetAt_none {kdb : KDB} {key : String} {t : Int}
    (h : ∀ e ∈ kdb.kc, e.key = key → e.ts < t) :
    GetAt kdb key t = .error .notFound := by
  have hf : kdb.kc.filter (fun e => e.key == key && t ≤ e.ts) = [] := by
    rw [List.filter_eq_nil_iff]
    intro e he
    simp only [Bool.and_eq_true, beq_iff_eq, decide_eq_true_eq, not_and]
    intro hk
    have := h e he hk
    omega
  have : findKVLogAfter kdb key t = none := by
    show minTsEntry _ = none
    rw [hf]
    rfl
  simp [GetAt, this]

theorem GetAt_unique_min {kdb : KDB} {key : String} {t : Int} {e : KVLog}
    (he : e ∈ kdb.kc) (hk : e.key = key) (ht : t ≤ e.ts)
    (hmin : ∀ x ∈ kdb.kc, x.key = key → t ≤ x.ts → x ≠ e → e.ts < x.ts) :
    GetAt kdb key t = resolveVal kdb e := by
  have hlat : findKVLogAfter kdb key t = some e := by
    apply minTsEntry_unique
    · refine List.mem_filter.mpr ⟨he, ?_⟩
      simp [hk, ht]
    · intro x hx hne
      have hx' := List.mem_filter.mp hx
      simp only [Bool.and_eq_true, beq_iff_eq, decide_eq_true_eq] at hx'
      exact hmin x hx'.1 hx'.2.1 hx'.2.2 hne
  simp [GetAt, hlat]



theorem mkEntry_val_of_vid_empty {hash : String → String} {k w : String} {t : Int}
    (h : (mkEntry hash k w t).vid = "") : (mkEntry hash k w t).val = w := by
  by_cases hlong : w.utf8ByteSize > maxInlineValueLength
  · simp only [mkEntry, hlong, if_true] at h ⊢
    simp [h]
  · simp [mkEntry, hlong]

theorem mkEntry_vid_ne {hash : String → String} {k w : String} {t : Int}
    (h : (mkEntry hash k w t).vid ≠ "") :
    w.utf8ByteSize > maxInlineValueLength ∧ (mkEntry hash k w t).vid = hash w ∧
      (mkEntry hash k w t).val = "" := by
  by_cases hlong : w.utf8ByteSize > maxInlineValueLength
  · simp only [mkEntry, hlong, if_true] at h ⊢
    have hne : (hash w == "") = false := by
      simpa using h
    simp [hne]
  · simp [mkEntry, hlong] at h

theorem resolveVal_inline {kdb : KDB} {e : KVLog} (h : e.vid = "") :
    resolveVal kdb e = .ok e.val := by
  simp [resolveVal, h]

theorem resolveVal_ref {kdb : KDB} {e : KVLog} {w : String} (h : e.vid ≠ "")
    (hf : findValue kdb e.vid = some w) : resolveVal kdb e = .ok w := by
  simp [resolveVal, h, hf]

theorem sameAsLatest_true_iff {vid val : String} {latest : KVLog} :
    sameAsLatest vid val latest = true ↔
      ((vid ≠ "" ∧ latest.vid = vid) ∨ (vid = "" ∧ latest.val = val)) := by
  simp [sameAsLatest, Bool.or_eq_true, Bool.and_eq_true, beq_iff_eq, bne_iff_ne]

theorem findKVLogLatest_some_mem {kdb : KDB} {key : String} {latest : KVLog}
    (h : findKVLogLatest kdb key = some latest) :
    latest ∈ kdb.kc ∧ latest.key = key ∧
      ∀ x ∈ kdb.kc, x.key = key → x.ts ≤ latest.ts := by
  have hspec := maxTsEntry_spec (l := kdb.kc.filter (fun e => e.key == key)) h
  obtain ⟨hmem, hall⟩ := hspec
  have hm := List.mem_filter.mp hmem
  refine ⟨hm.1, by simpa using hm.2, ?_⟩
  intro x hx hk
  exact hall x (List.mem_filter.mpr ⟨hx, by simpa using hk⟩)

theorem set_then_get {hash : String → String} (hinj : Function.Injective hash)
    {kdb kdb' : KDB} {k v : String} {now : Int}
    (hWF : ∀ r ∈ kdb.vc, r.id = hash r.val)
    (hts : ∀ e ∈ kdb.kc, e.key = k → e.ts < now)
    (hmx : ∀ e ∈ kdb.kc, e.key = k → e.vid ≠ "" → e.val = "")
    (hemp : trimSpace v = "" →
      ∀ latest, findKVLogLatest kdb k = some latest → latest.vid = "")
    (hok : Set hash kdb k v now = .ok kdb') :
    Get kdb' k = .ok (trimSpace v) := by
  have hWF' : ∀ r ∈ (valuePhase hash kdb (trimSpace v)).2, r.id = hash r.val :=
    valuePhase_WF (trimSpace v) hWF
  -- the appended-entry case, shared by the no-latest and changed-latest paths
  have hinsert :
      Set hash kdb k v now =
        insertKVLog ⟨kdb.kc, (valuePhase hash kdb (trimSpace v)).2⟩
          (mkEntry hash k (trimSpace v) now) →
      Get kdb' k = .ok (trimSpace v) := by
    intro heq
    rw [heq] at hok
    rw [insertKVLog_no_dup (by
      intro x hx hkx hts'
      rw [mkEntry_key] at hkx
      rw [mkEntry_ts] at hts'
      exact absurd (hts x hx hkx) (by omega))] at hok
    injection hok with hok
    subst hok
    have hget : Get ⟨kdb.kc ++ [mkEntry hash k (trimSpace v) now],
        (valuePhase hash kdb (trimSpace v)).2⟩ k =
        resolveVal ⟨kdb.kc ++ [mkEntry hash k (trimSpace v) now],
          (valuePhase hash kdb (trimSpace v)).2⟩ (mkEntry hash k (trimSpace v) now) := by
      apply Get_unique_max
      · simp
      · exact mkEntry_key hash k (trimSpace v) now
      · intro x hx hkx hne
        rcases List.mem_append.mp hx with hx' | hx'
        · rw [mkEntry_ts]
          exact hts x hx' hkx
        · rcases List.mem_singleton.mp hx' with rfl
          exact absurd rfl hne
    rw [hget]
    by_cases hvid : (mkEntry hash k (trimSpace v) now).vid = ""
    · rw [resolveVal_inline hvid, mkEntry_val_of_vid_empty hvid]
    · obtain ⟨hlong, hvid_eq, -⟩ := mkEntry_vid_ne hvid
      refine resolveVal_ref hvid ?_
      rw [hvid_eq]
      show findValue (⟨kdb.kc ++ [mkEntry hash k (trimSpace v) now],
        (valuePhase hash kdb (trimSpace v)).2⟩ : KDB) (hash (trimSpace v)) = _
      exact findValue_of_mem hinj hWF' (valuePhase_mem_long hinj hWF hlong)
  cases hl : findKVLogLatest kdb k with
  | none => exact hinsert (Set_eq_insert_of_none now hl)
  | some latest =>
      cases hs : sameAsLatest (valuePhase hash kdb (trimSpace v)).1 (trimSpace v) latest with
      | false => exact hinsert (Set_eq_insert_of_latest now hl hs)
      | true =>
          rw [Set_eq_noop now hl hs] at hok
          injection hok with hok
          subst hok
          obtain ⟨hmem, hkey, hmax⟩ := findKVLogLatest_some_mem hl
          have hget : Get ⟨kdb.kc, (valuePhase hash kdb (trimSpace v)).2⟩ k =
              resolveVal ⟨kdb.kc, (valuePhase hash kdb (trimSpace v)).2⟩ latest := by
            show Get _ k = _
            unfold Get
            rw [findKVLogLatest_state kdb _ k, hl]
          rw [hget]
          rcases sameAsLatest_true_iff.mp hs with ⟨hvne, hlv⟩ | ⟨hveq, hlv⟩
          · -- reference-based no-op
            have hfst := valuePhase_fst hash kdb (trimSpace v)
            by_cases hlong : (trimSpace v).utf8ByteSize > maxInlineValueLength
            · rw [hfst, if_pos hlong] at hvne hlv
              refine resolveVal_ref (by rw [hlv]; exact hvne) ?_
              rw [hlv]
              exact findValue_of_mem hinj hWF' (valuePhase_mem_long hinj hWF hlong)
            · rw [hfst, if_neg hlong] at hvne
              exact absurd rfl hvne
          · -- inline no-op
            have hlvid : latest.vid = "" := by
              by_cases hw : trimSpace v = ""
              · exact hemp hw latest hl
              · by_contra hne
                have := hmx latest hmem hkey hne
                rw [this] at hlv
                exact hw hlv.symm
            rw [resolveVal_inline hlvid, hlv]



theorem findKVLogLatest_none {kdb : KDB} {key : String}
    (h : ∀ e ∈ kdb.kc, e.key ≠ key) : findKVLogLatest kdb key = none := by
  have hf : kdb.kc.filter (fun e => e.key == key) = [] := by
    rw [List.filter_eq_nil_iff]
    intro e he
    simpa using h e he
  show maxTsEntry _ = none
  rw [hf]
  rfl

theorem insertKVLog_cases (kdb : KDB) (e : KVLog) :
    insertKVLog kdb e = .ok ⟨kdb.kc ++ [e], kdb.vc⟩ ∨
      insertKVLog kdb e = .dupErr kdb := by
  unfold insertKVLog
  split
  · exact Or.inr rfl
  · exact Or.inl rfl

theorem Set_ok_shapes {hash : String → String} {kdb kdb1 : KDB} {k v : String}
    {now : Int} (h : Set hash kdb k v now = .ok kdb1) :
    kdb1 = ⟨kdb.kc, (valuePhase hash kdb (trimSpace v)).2⟩ ∨
      kdb1 = ⟨kdb.kc ++ [mkEntry hash k (trimSpace v) now],
        (valuePhase hash kdb (trimSpace v)).2⟩ := by
  have hins :
      Set hash kdb k v now =
        insertKVLog ⟨kdb.kc, (valuePhase hash kdb (trimSpace v)).2⟩
          (mkEntry hash k (trimSpace v) now) →
      kdb1 = ⟨kdb.kc ++ [mkEntry hash k (trimSpace v) now],
        (valuePhase hash kdb (trimSpace v)).2⟩ := by
    intro heq
    rw [heq] at h
    rcases insertKVLog_cases ⟨kdb.kc, (valuePhase hash kdb (trimSpace v)).2⟩
      (mkEntry hash k (trimSpace v) now) with h' | h' <;> rw [h'] at h
    · injection h with h
      exact h.symm
    · cases h
  cases hl : findKVLogLatest kdb k with
  | none => exact Or.inr (hins (Set_eq_insert_of_none now hl))
  | some latest =>
      cases hs : sameAsLatest (valuePhase hash kdb (trimSpace v)).1 (trimSpace v) latest with
      | false => exact Or.inr (hins (Set_eq_insert_of_latest now hl hs))
      | true =>
          rw [Set_eq_noop now hl hs] at h
          injection h with h
          exact Or.inl h.symm

theorem Set_dup_state {hash : String → String} {kdb kdb1 : KDB} {k v : String}
    {now : Int} (h : Set hash kdb k v now = .dupErr kdb1) :
    kdb1 = ⟨kdb.kc, (valuePhase hash kdb (trimSpace v)).2⟩ := by
  have hins :
      Set hash kdb k v now =
        insertKVLog ⟨kdb.kc, (valuePhase hash kdb (trimSpace v)).2⟩
          (mkEntry hash k (trimSpace v) now) →
      kdb1 = ⟨kdb.kc, (valuePhase hash kdb (trimSpace v)).2⟩ := by
    intro heq
    rw [heq] at h
    rcases insertKVLog_cases ⟨kdb.kc, (valuePhase hash kdb (trimSpace v)).2⟩
      (mkEntry hash k (trimSpace v) now) with h' | h' <;> rw [h'] at h
    · cases h
    · injection h with h
      exact h.symm
  cases hl : findKVLogLatest kdb k with
  | none => exact hins (Set_eq_insert_of_none now hl)
  | some latest =>
      cases hs : sameAsLatest (valuePhase hash kdb (trimSpace v)).1 (trimSpace v) latest with
      | false => exact hins (Set_eq_insert_of_latest now hl hs)
      | true =>
          rw [Set_eq_noop now hl hs] at h
          cases h

theorem set_fresh_key {hash : String → String} {kdb kdb1 : KDB} {k v : String}
    {now : Int} (hf : ∀ e ∈ kdb.kc, e.key ≠ k)
    (h : Set hash kdb k v now = .ok kdb1) :
    kdb1 = ⟨kdb.kc ++ [mkEntry hash k (trimSpace v) now],
      (valuePhase hash kdb (trimSpace v)).2⟩ := by
  rw [Set_eq_insert_of_none now (findKVLogLatest_none hf)] at h
  rw [insertKVLog_no_dup (by
    intro x hx hkx
    rw [mkEntry_key] at hkx
    exact absurd hkx (hf x hx))] at h
  injection h with h
  exact h.symm

theorem set_set_idem {hash : String → String} {kdb kdb1 : KDB} {k v : String}
    {now1 : Int} (now2 : Int)
    (hts : ∀ e ∈ kdb.kc, e.key = k → e.ts < now1)
    (h1 : Set hash kdb k v now1 = .ok kdb1) :
    Set hash kdb1 k v now2 = .ok kdb1 := by
  have hvp1 : (valuePhase hash kdb (trimSpace v)).1 =
      (mkEntry hash k (trimSpace v) now1).vid := by
    rw [valuePhase_fst]
    simp [mkEntry]
  have hnoop2 :
      ∀ latest, findKVLogLatest kdb1 k = some latest →
        sameAsLatest (valuePhase hash kdb1 (trimSpace v)).1 (trimSpace v) latest = true →
        kdb1 = ⟨kdb1.kc, (valuePhase hash kdb1 (trimSpace v)).2⟩ →
        Set hash kdb1 k v now2 = .ok kdb1 := by
    intro latest hl hs hst
    rw [Set_eq_noop now2 hl hs]
    rw [← hst]
  cases hl : findKVLogLatest kdb k with
  | none =>
      rw [Set_eq_insert_of_none now1 hl] at h1
      rw [insertKVLog_no_dup (by
        intro x hx hkx
        rw [mkEntry_key] at hkx
        rw [mkEntry_ts]
        exact fun hts' => absurd (hts x hx hkx) (by omega))] at h1
      injection h1 with h1
      subst h1
      have hvpi := valuePhase_idem hash kdb (trimSpace v)
        (kdb.kc ++ [mkEntry hash k (trimSpace v) now1])
      have hlat1 : findKVLogLatest
          (⟨kdb.kc ++ [mkEntry hash k (trimSpace v) now1],
            (valuePhase hash kdb (trimSpace v)).2⟩ : KDB) k =
          some (mkEntry hash k (trimSpace v) now1) := by
        apply maxTsEntry_unique
        · exact List.mem_filter.mpr ⟨by simp, by simp [mkEntry_key]⟩
        · intro x hx hne
          have hx' := List.mem_filter.mp hx
          rcases List.mem_append.mp hx'.1 with hxm | hxm
          · rw [mkEntry_ts]
            exact hts x hxm (by simpa using hx'.2)
          · rcases List.mem_singleton.mp hxm with rfl
            exact absurd rfl hne
      apply hnoop2 _ hlat1
      · rw [hvpi]
        by_cases hv : (valuePhase hash kdb (trimSpace v)).1 = ""
        · rw [sameAsLatest_true_iff]
          exact Or.inr ⟨hv, mkEntry_val_of_vid_empty (hvp1.symm.trans hv)⟩
        · rw [sameAsLatest_true_iff]
          exact Or.inl ⟨hv, hvp1.symm⟩
      · show _ = KDB.mk _ _
        rw [hvpi]
  | some latest =>
      cases hs : sameAsLatest (valuePhase hash kdb (trimSpace v)).1 (trimSpace v) latest with
      | true =>
          rw [Set_eq_noop now1 hl hs] at h1
          injection h1 with h1
          subst h1
          have hvpi := valuePhase_idem hash kdb (trimSpace v) kdb.kc
          have hlat1 : findKVLogLatest
              (⟨kdb.kc, (valuePhase hash kdb (trimSpace v)).2⟩ : KDB) k = some latest := by
            rw [findKVLogLatest_state]
            exact hl
          apply hnoop2 _ hlat1
          · rw [hvpi]
            exact hs
          · show _ = KDB.mk _ _
            rw [hvpi]
      | false =>
          rw [Set_eq_insert_of_latest now1 hl hs] at h1
          rw [insertKVLog_no_dup (by
            intro x hx hkx
            rw [mkEntry_key] at hkx
            rw [mkEntry_ts]
            exact fun hts' => absurd (hts x hx hkx) (by omega))] at h1
          injection h1 with h1
          subst h1
          have hvpi := valuePhase_idem hash kdb (trimSpace v)
            (kdb.kc ++ [mkEntry hash k (trimSpace v) now1])
          have hlat1 : findKVLogLatest
              (⟨kdb.kc ++ [mkEntry hash k (trimSpace v) now1],
                (valuePhase hash kdb (trimSpace v)).2⟩ : KDB) k =
              some (mkEntry hash k (trimSpace v) now1) := by
            apply maxTsEntry_unique
            · exact List.mem_filter.mpr ⟨by simp, by simp [mkEntry_key]⟩
            · intro x hx hne
              have hx' := List.mem_filter.mp hx
              rcases List.mem_append.mp hx'.1 with hxm | hxm
              · rw [mkEntry_ts]
                exact hts x hxm (by simpa using hx'.2)
              · rcases List.mem_singleton.mp hxm with rfl
                exact absurd rfl hne
          apply hnoop2 _ hlat1
          · rw [hvpi]
            by_cases hv : (valuePhase hash kdb (trimSpace v)).1 = ""
            · rw [sameAsLatest_true_iff]
              exact Or.inr ⟨hv, mkEntry_val_of_vid_empty (hvp1.symm.trans hv)⟩
            · rw [sameAsLatest_true_iff]
              exact Or.inl ⟨hv, hvp1.symm⟩
          · show _ = KDB.mk _ _
            rw [hvpi]



theorem insertTsDesc_last {e : KVLog} :
    ∀ m : List KVLog, (∀ y ∈ m, ¬ e.ts > y.ts) → insertTsDesc e m = m ++ [e] := by
  intro m
  induction m with
  | nil => intro; rfl
  | cons x xs ih =>
      intro h
      unfold insertTsDesc
      rw [if_neg (h x (List.mem_cons_self _ _))]
      rw [ih (fun y hy => h y (List.mem_cons_of_mem _ hy))]
      rfl

theorem sortTsDesc_of_ascending :
    ∀ l : List KVLog, l.Pairwise (fun a b => a.ts < b.ts) → sortTsDesc l = l.reverse := by
  intro l
  induction l with
  | nil => intro; rfl
  | cons x xs ih =>
      intro h
      have h' := List.pairwise_cons.mp h
      show insertTsDesc x (sortTsDesc xs) = _
      rw [ih h'.2]
      rw [insertTsDesc_last _ (by
        intro y hy
        have := h'.1 y (List.mem_reverse.mp hy)
        omega)]
      simp

theorem drainAux_resolved :
    ∀ (l : List KVLog) (kdb : KDB) (er : Option KVError) (res : List KVLog),
      l.map (resolveNext kdb) = res.map some →
      Iterator.drainAux l.length ⟨kdb, l, er⟩ = (res, ⟨kdb, [], er⟩) := by
  intro l
  induction l with
  | nil =>
      intro kdb er res h
      rw [List.map_nil] at h
      have : res = [] := by
        cases res with
        | nil => rfl
        | cons a as => simp at h
      subst this
      rfl
  | cons e l' ih =>
      intro kdb er res h
      rw [List.map_cons] at h
      cases res with
      | nil => simp at h
      | cons r res' =>
          rw [List.map_cons] at h
          injection h with h1 h2
          have hnext : Iterator.next ⟨kdb, e :: l', er⟩ = (some r, ⟨kdb, l', er⟩) := by
            simp only [Iterator.next]
            unfold resolveNext at h1
            by_cases hval : e.val == ""
            · rw [if_pos hval] at h1 ⊢
              cases hf : findValue kdb e.vid with
              | none => rw [hf] at h1; simp at h1
              | some u =>
                  rw [hf] at h1
                  simp only [Option.map_some'] at h1
                  injection h1 with h1
                  simp only [hf]
                  rw [h1]
            · rw [if_neg hval] at h1 ⊢
              injection h1 with h1
              rw [h1]
          show Iterator.drainAux (l'.length + 1) ⟨kdb, e :: l', er⟩ = _
          unfold Iterator.drainAux
          rw [hnext]
          simp only []
          rw [ih kdb er res' h2]



theorem testHash_inj : Function.Injective testHash := by
  intro a b h
  have h2 := congrArg String.data h
  simp only [testHash, String.data_append] at h2
  exact String.ext (by simpa using h2)

theorem testHash_ne_empty : ∀ s, testHash s ≠ "" := by
  intro s h
  have h2 := congrArg String.data h
  simp [testHash, String.data_append] at h2

theorem sameAsLatest_false_of {vid val : String} {latest : KVLog}
    (h1 : vid = "" → latest.val ≠ val) (h2 : vid ≠ "" → latest.vid ≠ vid) :
    sameAsLatest vid val latest = false := by
  cases hb : sameAsLatest vid val latest
  · rfl
  · rcases sameAsLatest_true_iff.mp hb with ⟨ha, hbb⟩ | ⟨ha, hbb⟩
    · exact absurd hbb (h2 ha)
    · exact absurd hbb (h1 ha)

theorem set_step_shape {hash : String → String} (hinj : Function.Injective hash)
    (hne : ∀ s, hash s ≠ "") {k v : String} {t : Int}
    (ps : List (String × Int)) (kdb : KDB)
    (hkc : kdb.kc = ps.map (fun p => mkEntry hash k (trimSpace p.1) p.2))
    (hpw : (ps.map Prod.snd).Pairwise (· < ·))
    (hts : ∀ p ∈ ps, p.2 < t)
    (hlastne : ∀ q ∈ ps.getLast?, trimSpace q.1 ≠ trimSpace v)
    (hnv : trimSpace v ≠ "") :
    Set hash kdb k v t =
      .ok ⟨kdb.kc ++ [mkEntry hash k (trimSpace v) t],
        (valuePhase hash kdb (trimSpace v)).2⟩ := by
  have hnodup : ∀ x ∈ kdb.kc, x.key = (mkEntry hash k (trimSpace v) t).key →
      x.ts ≠ (mkEntry hash k (trimSpace v) t).ts := by
    intro x hx hkx
    rw [hkc] at hx
    obtain ⟨p, hp, rfl⟩ := List.mem_map.mp hx
    rw [mkEntry_ts, mkEntry_ts]
    have := hts p hp
    omega
  rcases List.eq_nil_or_concat ps with rfl | ⟨qs, q, rfl⟩
  · have hl : findKVLogLatest kdb k = none := by
      apply findKVLogLatest_none
      rw [hkc]
      simp
    rw [Set_eq_insert_of_none t hl]
    exact insertKVLog_no_dup hnodup
  · simp only [List.concat_eq_append] at hkc hpw hts hlastne
    have hq : trimSpace q.1 ≠ trimSpace v := by
      apply hlastne
      simp [List.getLast?_concat]
    have hl : findKVLogLatest kdb k = some (mkEntry hash k (trimSpace q.1) q.2) := by
      apply maxTsEntry_unique
      · refine List.mem_filter.mpr ⟨?_, ?_⟩
        · rw [hkc]
          simp
        · simp [mkEntry_key]
      · intro x hx hne'
        have hx' := List.mem_filter.mp hx
        rw [hkc] at hx'
        rw [List.map_append] at hx'
        rcases List.mem_append.mp hx'.1 with hxm | hxm
        · obtain ⟨p, hp, rfl⟩ := List.mem_map.mp hxm
          rw [mkEntry_ts, mkEntry_ts]
          rw [List.map_append, List.pairwise_append] at hpw
          have := hpw.2.2 p.2 (List.mem_map.mpr ⟨p, hp, rfl⟩) q.2 (by simp)
          exact this
        · rcases List.mem_singleton.mp hxm with rfl
          exact absurd rfl hne'
    have hs : sameAsLatest (valuePhase hash kdb (trimSpace v)).1 (trimSpace v)
        (mkEntry hash k (trimSpace q.1) q.2) = false := by
      apply sameAsLatest_false_of
      · intro hvid
        by_cases hlq : (trimSpace q.1).utf8ByteSize > maxInlineValueLength
        · rw [mkEntry_long hash k q.2 hlq (hne _)]
          exact fun hc => hnv hc.symm
        · rw [mkEntry_short hash k q.2 hlq]
          exact fun hc => hq hc
      · intro hvid
        rw [valuePhase_fst] at hvid ⊢
        by_cases hlv : (trimSpace v).utf8ByteSize > maxInlineValueLength
        · rw [if_pos hlv]
          by_cases hlq : (trimSpace q.1).utf8ByteSize > maxInlineValueLength
          · rw [mkEntry_long hash k q.2 hlq (hne _)]
            intro hc
            exact hq (hinj hc)
          · rw [mkEntry_short hash k q.2 hlq]
            exact fun hc => hne _ hc.symm
        · rw [if_neg hlv] at hvid
          exact absurd rfl hvid
    rw [Set_eq_insert_of_latest t hl hs]
    exact insertKVLog_no_dup hnodup



theorem setList_shape {hash : String → String} (hinj : Function.Injective hash)
    (hne : ∀ s, hash s ≠ "") (k : String) :
    ∀ (ws ps : List (String × Int)) (kdb kdbF : KDB),
      kdb.kc = ps.map (fun p => mkEntry hash k (trimSpace p.1) p.2) →
      (∀ r ∈ kdb.vc, r.id = hash r.val) →
      (∀ p ∈ ps, (trimSpace p.1).utf8ByteSize > maxInlineValueLength →
        (⟨hash (trimSpace p.1), trimSpace p.1⟩ : Value) ∈ kdb.vc) →
      ((ps ++ ws).map Prod.snd).Pairwise (· < ·) →
      ((ps ++ ws).map (fun p => trimSpace p.1)).Chain' (· ≠ ·) →
      (∀ p ∈ ps ++ ws, trimSpace p.1 ≠ "") →
      setList hash kdb k ws = some kdbF →
      kdbF.kc = (ps ++ ws).map (fun p => mkEntry hash k (trimSpace p.1) p.2) ∧
      (∀ r ∈ kdbF.vc, r.id = hash r.val) ∧
      (∀ p ∈ ps ++ ws, (trimSpace p.1).utf8ByteSize > maxInlineValueLength →
        (⟨hash (trimSpace p.1), trimSpace p.1⟩ : Value) ∈ kdbF.vc) := by
  intro ws
  induction ws with
  | nil =>
      intro ps kdb kdbF hkc hWF hmem hpw hch hnem hrun
      simp only [setList] at hrun
      injection hrun with hrun
      subst hrun
      exact ⟨by simpa using hkc, hWF, by simpa using hmem⟩
  | cons p ws' ih =>
      obtain ⟨v, t⟩ := p
      intro ps kdb kdbF hkc hWF hmem hpw hch hnem hrun
      have hpw' := hpw
      rw [List.map_append, List.pairwise_append] at hpw'
      have hts : ∀ q ∈ ps, q.2 < t := by
        intro q hq
        exact hpw'.2.2 q.2 (List.mem_map.mpr ⟨q, hq, rfl⟩)
          t (by simp)
      have hlastne : ∀ q ∈ ps.getLast?, trimSpace q.1 ≠ trimSpace v := by
        intro q hq
        have hch' := hch
        rw [List.map_append, List.chain'_append] at hch'
        refine hch'.2.2 (trimSpace q.1) ?_ (trimSpace v) (by simp)
        rw [Option.mem_def] at hq
        simp [List.getLast?_map, hq]
      have hnv : trimSpace v ≠ "" := hnem (v, t) (by simp)
      have hset := set_step_shape hinj hne ps kdb hkc
        (by
          have := hpw'.1
          exact this)
        hts hlastne hnv
      simp only [setList] at hrun
      rw [hset] at hrun
      have hkc1 : (KDB.mk (kdb.kc ++ [mkEntry hash k (trimSpace v) t])
          (valuePhase hash kdb (trimSpace v)).2).kc =
          (ps ++ [(v, t)]).map (fun p => mkEntry hash k (trimSpace p.1) p.2) := by
        simp only [List.map_append, List.map_cons, List.map_nil]
        rw [hkc]
      have hWF1 := valuePhase_WF (trimSpace v) hWF
      have hmem1 : ∀ p ∈ ps ++ [(v, t)],
          (trimSpace p.1).utf8ByteSize > maxInlineValueLength →
          (⟨hash (trimSpace p.1), trimSpace p.1⟩ : Value) ∈
            (valuePhase hash kdb (trimSpace v)).2 := by
        intro p hp hlp
        rcases List.mem_append.mp hp with hp' | hp'
        · exact valuePhase_mem_mono hash kdb _ _ (hmem p hp' hlp)
        · rcases List.mem_singleton.mp hp' with rfl
          exact valuePhase_mem_long hinj hWF hlp
      have hassoc : (ps ++ [(v, t)]) ++ ws' = ps ++ ((v, t) :: ws') := by
        simp
      have hres := ih (ps ++ [(v, t)])
        ⟨kdb.kc ++ [mkEntry hash k (trimSpace v) t], (valuePhase hash kdb (trimSpace v)).2⟩
        kdbF hkc1 hWF1 hmem1
        (by rw [hassoc]; exact hpw)
        (by rw [hassoc]; exact hch)
        (by rw [hassoc]; exact hnem)
        hrun
      rw [hassoc] at hres
      exact hres



/-- C6: for every key and query timestamp t, GetAt returns the resolved
value of the entry with the minimum timestamp among the key's entries
with timestamp ≥ t, and fails with NotFound when no such entry exists. -/
theorem c6_getat_first_at_or_after (kdb : KDB) (k : String) (t : Int) :
    ((∀ e ∈ kdb.kc, e.key = k → e.ts < t) → GetAt kdb k t = .error .notFound) ∧
    (∀ e ∈ kdb.kc, e.key = k → t ≤ e.ts →
      (∀ x ∈ kdb.kc, x.key = k → t ≤ x.ts → x ≠ e → e.ts < x.ts) →
      GetAt kdb k t = resolveVal kdb e) :=
  ⟨fun h => GetAt_none h, fun e he hk ht hmin => GetAt_unique_min he hk ht hmin⟩

/-- C5 (amended): Get returns the resolved value of the History Entry
with the maximum timestamp among the key's entries, and fails with
NotFound when the key has no history; after writing v1 then v2 (distinct)
from an empty store, Get returns trim(v2) — provided trim(v2) is
non-empty (with an empty trimmed v2 after a reference-based entry the
write is silently dropped, see the counterexample). -/
theorem c5_get_latest {hash : String → String} (hinj : Function.Injective hash)
    (kdb : KDB) (k : String) :
    ((∀ e ∈ kdb.kc, e.key ≠ k) → Get kdb k = .error .notFound) ∧
    (∀ e ∈ kdb.kc, e.key = k →
      (∀ x ∈ kdb.kc, x.key = k → x ≠ e → x.ts < e.ts) →
      Get kdb k = resolveVal kdb e) ∧
    (∀ v1 v2 : String, ∀ t1 t2 : Int, ∀ kdb1 kdb2 : KDB,
      t1 < t2 → trimSpace v2 ≠ "" →
      Set hash emptyKDB k v1 t1 = .ok kdb1 →
      Set hash kdb1 k v2 t2 = .ok kdb2 →
      Get kdb2 k = .ok (trimSpace v2)) := by
  refine ⟨fun h => Get_none h, fun e he hk hmax => Get_unique_max he hk hmax, ?_⟩
  intro v1 v2 t1 t2 kdb1 kdb2 ht hnv2 h1 h2
  have hkdb1 := set_fresh_key (by simp [emptyKDB]) h1
  subst hkdb1
  refine set_then_get hinj ?_ ?_ ?_ ?_ h2
  · exact valuePhase_WF (trimSpace v1) (by simp [emptyKDB])
  · intro e he hk
    simp only [emptyKDB, List.nil_append] at he
    rcases List.mem_singleton.mp he with rfl
    rw [mkEntry_ts]
    exact ht
  · intro e he hk hvid
    simp only [emptyKDB, List.nil_append] at he
    rcases List.mem_singleton.mp he with rfl
    exact mkEntry_mx hvid
  · intro hw
    exact absurd hw hnv2



/-- C2: calling Set(key, value) twice in succession is idempotent: once
the first call succeeds (at a timestamp beyond the key's history), the
second call detects that the latest entry already holds the candidate and
returns success leaving the store exactly as it was; starting from a key
with no history the two calls produce exactly one History Entry. -/
theorem c2_set_idempotent {hash : String → String} {kdb kdb1 : KDB} {k v : String}
    (now1 now2 : Int)
    (hfresh : ∀ e ∈ kdb.kc, e.key = k → e.ts < now1)
    (h1 : Set hash kdb k v now1 = .ok kdb1) :
    Set hash kdb1 k v now2 = .ok kdb1 ∧
    ((∀ e ∈ kdb.kc, e.key ≠ k) →
      (kdb1.kc.filter (fun e => e.key == k)).length = 1) := by
  refine ⟨set_set_idem now2 hfresh h1, ?_⟩
  intro hf
  rw [set_fresh_key hf h1]
  show (List.filter _ (kdb.kc ++ [mkEntry hash k (trimSpace v) now1])).length = 1
  rw [List.filter_append]
  have h0 : kdb.kc.filter (fun e => e.key == k) = [] :=
    List.filter_eq_nil_iff.mpr (fun e he => by simpa using hf e he)
  rw [h0]
  simp [mkEntry_key]

/-- C1 (amended): for every key and payload, Set(k, p) followed by
Get(k) returns trim(p) — on any well-formed store (value records are
content-addressed under a collision-free hash, reference entries carry no
inline value, the write timestamp is fresh), provided that when trim(p)
is empty the key's latest entry is not reference-based (that corner fails
on the code, see the counterexample). -/
theorem c1_round_trip {hash : String → String} (hinj : Function.Injective hash)
    (kdb kdb1 : KDB) (k v : String) (now : Int)
    (hWF : ∀ r ∈ kdb.vc, r.id = hash r.val)
    (hts : ∀ e ∈ kdb.kc, e.key = k → e.ts < now)
    (hmx : ∀ e ∈ kdb.kc, e.key = k → e.vid ≠ "" → e.val = "")
    (hemp : trimSpace v = "" →
      ∀ latest, findKVLogLatest kdb k = some latest → latest.vid = "")
    (hok : Set hash kdb k v now = .ok kdb1) :
    Get kdb1 k = .ok (trimSpace v) :=
  set_then_get hinj hWF hts hmx hemp hok

/-- C4 (amended): Set either leaves the History Index unchanged
(no-op), appends exactly one History Entry, or fails leaving the History
Index unchanged; the Value Store gains at most the one content-addressed
record for the written value — but a failed append can still leave that
freshly inserted Value Record behind (the claim's "fails leaving no new
records" is refuted by the counterexample). -/
theorem c4_set_atomicity (hash : String → String) (kdb : KDB) (k v : String)
    (now : Int) :
    ((Set hash kdb k v now).state.vc = kdb.vc ∨
      (Set hash kdb k v now).state.vc = kdb.vc ++ [⟨hash (trimSpace v), trimSpace v⟩]) ∧
    (∀ kdb1, Set hash kdb k v now = .ok kdb1 →
      kdb1.kc = kdb.kc ∨ kdb1.kc = kdb.kc ++ [mkEntry hash k (trimSpace v) now]) ∧
    (∀ kdb1, Set hash kdb k v now = .dupErr kdb1 → kdb1.kc = kdb.kc) := by
  refine ⟨?_, ?_, ?_⟩
  · rw [Set_state_vc]
    exact valuePhase_vc_cases hash kdb (trimSpace v)
  · intro kdb1 h
    rcases Set_ok_shapes h with h' | h' <;> rw [h']
    · exact Or.inl rfl
    · exact Or.inr rfl
  · intro kdb1 h
    rw [Set_dup_state h]

/-- C7: Set stores the value by reference exactly when the trimmed
value's length exceeds maxInlineValueLength = 200: below or at the
threshold the value collection is untouched and an appended entry carries
the value inline with an empty vid; above it, the value record is present
under the content hash after the call, and an appended entry references
that hash with no inline value. -/
theorem c7_inline_threshold (hash : String → String) (kdb : KDB) (k v : String)
    (now : Int) :
    (¬ (trimSpace v).utf8ByteSize > maxInlineValueLength →
      (Set hash kdb k v now).state.vc = kdb.vc ∧
      (∀ kdb1, Set hash kdb k v now = .ok kdb1 →
        kdb1.kc = kdb.kc ∨ kdb1.kc = kdb.kc ++ [⟨k, now, trimSpace v, ""⟩])) ∧
    ((trimSpace v).utf8ByteSize > maxInlineValueLength →
      (findValue (Set hash kdb k v now).state (hash (trimSpace v))).isSome ∧
      (hash (trimSpace v) ≠ "" →
        ∀ kdb1, Set hash kdb k v now = .ok kdb1 →
          kdb1.kc = kdb.kc ∨ kdb1.kc = kdb.kc ++ [⟨k, now, "", hash (trimSpace v)⟩])) := by
  constructor
  · intro hshort
    constructor
    · rw [Set_state_vc]
      rw [valuePhase_short hash kdb _ hshort]
    · intro kdb1 h
      rcases Set_ok_shapes h with h' | h' <;> rw [h']
      · exact Or.inl rfl
      · rw [mkEntry_short hash k now hshort]
        exact Or.inr rfl
  · intro hlong
    constructor
    · have heq : findValue (Set hash kdb k v now).state (hash (trimSpace v)) =
          findValue ⟨[], (valuePhase hash kdb (trimSpace v)).2⟩ (hash (trimSpace v)) := by
        unfold findValue
        rw [Set_state_vc]
      rw [heq]
      exact valuePhase_findValue_long hash kdb hlong []
    · intro hne kdb1 h
      rcases Set_ok_shapes h with h' | h' <;> rw [h']
      · exact Or.inl rfl
      · rw [mkEntry_long hash k now hlong hne]
        exact Or.inr rfl

/-- C3: writing the same long payload (trimmed length over the inline
threshold) under two different keys from an empty store yields exactly
one Value Record, keyed by the content hash, and two History Entries that
both reference it by that hash. -/
theorem c3_content_dedup {hash : String → String} {p : String} (k1 k2 : String)
    (t1 t2 : Int) (hk : k1 ≠ k2)
    (hlong : (trimSpace p).utf8ByteSize > maxInlineValueLength)
    (hne : hash (trimSpace p) ≠ "") :
    Set hash emptyKDB k1 p t1 =
      .ok ⟨[⟨k1, t1, "", hash (trimSpace p)⟩], [⟨hash (trimSpace p), trimSpace p⟩]⟩ ∧
    Set hash ⟨[⟨k1, t1, "", hash (trimSpace p)⟩], [⟨hash (trimSpace p), trimSpace p⟩]⟩
        k2 p t2 =
      .ok ⟨[⟨k1, t1, "", hash (trimSpace p)⟩, ⟨k2, t2, "", hash (trimSpace p)⟩],
        [⟨hash (trimSpace p), trimSpace p⟩]⟩ := by
  have hvp1 : valuePhase hash ⟨[], []⟩ (trimSpace p) =
      (hash (trimSpace p), [⟨hash (trimSpace p), trimSpace p⟩]) := by
    simp [valuePhase, hlong, findValue]
  constructor
  · rw [Set_eq_insert_of_none t1 (findKVLogLatest_none (by simp [emptyKDB]))]
    rw [insertKVLog_no_dup (by simp [emptyKDB])]
    rw [mkEntry_long hash k1 t1 hlong hne]
    simp [emptyKDB, hvp1]
  · have hvp2 : valuePhase hash
        ⟨[⟨k1, t1, "", hash (trimSpace p)⟩], [⟨hash (trimSpace p), trimSpace p⟩]⟩
        (trimSpace p) =
        (hash (trimSpace p), [⟨hash (trimSpace p), trimSpace p⟩]) := by
      simp [valuePhase, hlong, findValue]
    rw [Set_eq_insert_of_none t2 (findKVLogLatest_none (by
      intro e he
      rcases List.mem_singleton.mp he with rfl
      simpa using hk))]
    rw [insertKVLog_no_dup (by
      intro x hx hkx
      rcases List.mem_singleton.mp hx with rfl
      rw [mkEntry_key] at hkx
      exact absurd hkx hk)]
    rw [mkEntry_long hash k2 t2 hlong hne]
    simp [hvp2]

/-- C9: Iterator.Next tests for a referenced value by emptiness of the
decoded inline value: after Set of an empty or whitespace-only input on a
fresh key, the stored entry has an empty inline value and an empty vid,
Get on the key succeeds returning the empty string, but Next attempts a
Value Store lookup with the empty vid and returns none with the iterator
error set to the lookup failure. -/
theorem c9_iterator_empty_inline {hash : String → String} (kdb : KDB)
    (k v : String) (now : Int) (hw : trimSpace v = "")
    (hfresh : ∀ e ∈ kdb.kc, e.key ≠ k)
    (hnv : findValue kdb "" = none) :
    Set hash kdb k v now = .ok ⟨kdb.kc ++ [⟨k, now, "", ""⟩], kdb.vc⟩ ∧
    Get ⟨kdb.kc ++ [⟨k, now, "", ""⟩], kdb.vc⟩ k = .ok "" ∧
    (GetIterator ⟨kdb.kc ++ [⟨k, now, "", ""⟩], kdb.vc⟩ k).next =
      (none, ⟨⟨kdb.kc ++ [⟨k, now, "", ""⟩], kdb.vc⟩, [], some .notFound⟩) := by
  have hshort : ¬ (trimSpace v).utf8ByteSize > maxInlineValueLength := by
    rw [hw]
    decide
  have hE : mkEntry hash k (trimSpace v) now = ⟨k, now, "", ""⟩ := by
    rw [mkEntry_short hash k now hshort, hw]
  refine ⟨?_, ?_, ?_⟩
  · rw [Set_eq_insert_of_none now (findKVLogLatest_none hfresh)]
    rw [insertKVLog_no_dup (by
      intro x hx hkx
      rw [mkEntry_key] at hkx
      exact absurd hkx (hfresh x hx))]
    rw [hE]
    rw [valuePhase_short hash kdb _ hshort]
  · rw [Get_unique_max (e := ⟨k, now, "", ""⟩) (by simp) rfl (by
      intro x hx hkx hne
      rcases List.mem_append.mp hx with hx' | hx'
      · exact absurd hkx (hfresh x hx')
      · rcases List.mem_singleton.mp hx' with rfl
        exact absurd rfl hne)]
    rw [resolveVal_inline rfl]
  · have hfl : (kdb.kc ++ [(⟨k, now, "", ""⟩ : KVLog)]).filter (fun e => e.key == k) =
        [⟨k, now, "", ""⟩] := by
      rw [List.filter_append]
      rw [List.filter_eq_nil_iff.mpr (fun e he => by simpa using hfresh e he)]
      simp
    have hit : GetIterator ⟨kdb.kc ++ [⟨k, now, "", ""⟩], kdb.vc⟩ k =
        ⟨⟨kdb.kc ++ [⟨k, now, "", ""⟩], kdb.vc⟩, [⟨k, now, "", ""⟩], none⟩ := by
      unfold GetIterator
      rw [hfl]
      rfl
    rw [hit]
    have hfv : findValue (⟨kdb.kc ++ [⟨k, now, "", ""⟩], kdb.vc⟩ : KDB) "" = none := by
      unfold findValue at hnv ⊢
      exact hnv
    simp [Iterator.next, hfv]



/-- C10 (amended): Set deduplicates only against the single latest
entry: Set(k,a); Set(k,b); Set(k,a) with distinct values produces three
History Entries even though the first and third hold the identical value
— provided both trimmed values are non-empty (an empty candidate after a
reference-based entry is wrongly treated as a no-op, see the
counterexample). -/
theorem c10_dedup_latest_only {hash : String → String} (hinj : Function.Injective hash)
    (hne : ∀ s, hash s ≠ "") (k a b : String) (t1 t2 t3 : Int)
    (hab : trimSpace a ≠ trimSpace b)
    (ha : trimSpace a ≠ "") (hb : trimSpace b ≠ "")
    (h12 : t1 < t2) (h23 : t2 < t3) :
    (setList hash emptyKDB k [(a, t1), (b, t2), (a, t3)]).isSome ∧
    ∀ kdbF, setList hash emptyKDB k [(a, t1), (b, t2), (a, t3)] = some kdbF →
      kdbF.kc = [mkEntry hash k (trimSpace a) t1, mkEntry hash k (trimSpace b) t2,
        mkEntry hash k (trimSpace a) t3] := by
  have hset1 := set_step_shape hinj hne (k := k) [] emptyKDB
    (v := a) (t := t1) rfl (by simp) (by simp) (by simp) ha
  have hset2 := set_step_shape hinj hne (k := k) [(a, t1)]
    ⟨emptyKDB.kc ++ [mkEntry hash k (trimSpace a) t1],
      (valuePhase hash emptyKDB (trimSpace a)).2⟩
    (v := b) (t := t2) (by simp [emptyKDB]) (by simp) (by simpa using h12)
    (by
      intro q hq
      rw [Option.mem_def] at hq
      simp only [List.getLast?_singleton, Option.some.injEq] at hq
      subst hq
      exact hab)
    hb
  have hset3 := set_step_shape hinj hne (k := k) [(a, t1), (b, t2)]
    ⟨(⟨emptyKDB.kc ++ [mkEntry hash k (trimSpace a) t1],
        (valuePhase hash emptyKDB (trimSpace a)).2⟩ : KDB).kc ++
          [mkEntry hash k (trimSpace b) t2],
      (valuePhase hash
        ⟨emptyKDB.kc ++ [mkEntry hash k (trimSpace a) t1],
          (valuePhase hash emptyKDB (trimSpace a)).2⟩ (trimSpace b)).2⟩
    (v := a) (t := t3)
    (by simp [emptyKDB])
    (by
      simp only [List.map_cons, List.map_nil]
      exact List.pairwise_pair.mpr h12)
    (by
      intro p hp
      rcases List.mem_cons.mp hp with rfl | hp2
      · exact (show t1 < t3 by omega)
      · rcases List.mem_singleton.mp hp2 with rfl
        exact (show t2 < t3 by omega))
    (by
      intro q hq
      rw [Option.mem_def] at hq
      simp only [List.getLast?_cons_cons, List.getLast?_singleton,
        Option.some.injEq] at hq
      subst hq
      exact hab.symm)
    ha
  constructor
  · simp only [setList, hset1, hset2, hset3, Option.isSome_some]
  · intro kdbF h
    simp only [setList, hset1, hset2, hset3] at h
    injection h with h
    subst h
    simp [emptyKDB]



/-- C8 (amended): for a key written with distinct values at increasing
timestamps, all non-empty after trimming, draining the history iterator
yields exactly the n written values in descending timestamp order
vn, ..., v1, with no iterator error, and each produced value equals the
Get-style resolution (inline or via the Value Store) of the corresponding
history entry — the non-empty proviso is forced by the counterexample,
where an empty stored value makes the iterator fail. -/
theorem c8_history_iteration {hash : String → String} (hinj : Function.Injective hash)
    (hne : ∀ s, hash s ≠ "") (k : String) (ws : List (String × Int)) (kdbF : KDB)
    (hts : (ws.map Prod.snd).Pairwise (· < ·))
    (hdist : (ws.map (fun p => trimSpace p.1)).Pairwise (· ≠ ·))
    (hnem : ∀ p ∈ ws, trimSpace p.1 ≠ "")
    (hrun : setList hash emptyKDB k ws = some kdbF) :
    ((GetIterator kdbF k).drain).1.map KVLog.val =
      (ws.map (fun p => trimSpace p.1)).reverse ∧
    ((GetIterator kdbF k).drain).1.map KVLog.ts = (ws.map Prod.snd).reverse ∧
    ((GetIterator kdbF k).drain).2.err = none ∧
    ((GetIterator kdbF k).drain).1.map (fun e => Except.ok e.val) =
      (sortTsDesc (kdbF.kc.filter (fun e => e.key == k))).map (resolveVal kdbF) := by
  obtain ⟨hkc, hWF, hmem⟩ := setList_shape hinj hne k ws [] emptyKDB kdbF rfl
    (by simp [emptyKDB]) (by simp)
    (by simpa using hts) (by simpa using hdist.chain') (by simpa using hnem) hrun
  rw [List.nil_append] at hkc hmem
  have hkeys : ∀ e ∈ kdbF.kc, (fun e : KVLog => e.key == k) e = true := by
    rw [hkc]
    intro e he
    obtain ⟨p, hp, rfl⟩ := List.mem_map.mp he
    simp [mkEntry_key]
  have hfilter : kdbF.kc.filter (fun e => e.key == k) = kdbF.kc :=
    List.filter_eq_self.mpr hkeys
  have hasc : kdbF.kc.Pairwise (fun x y => x.ts < y.ts) := by
    rw [hkc, List.pairwise_map]
    have h2 := List.pairwise_map.mp hts
    exact h2.imp (by
      intro x y h
      rw [mkEntry_ts, mkEntry_ts]
      exact h)
  have hsortd : sortTsDesc (kdbF.kc.filter (fun e => e.key == k)) = kdbF.kc.reverse := by
    rw [hfilter]
    exact sortTsDesc_of_ascending _ hasc
  have hres : ∀ p ∈ ws,
      resolveNext kdbF (mkEntry hash k (trimSpace p.1) p.2) =
        some ⟨k, p.2, trimSpace p.1, (mkEntry hash k (trimSpace p.1) p.2).vid⟩ ∧
      resolveVal kdbF (mkEntry hash k (trimSpace p.1) p.2) = .ok (trimSpace p.1) := by
    intro p hp
    by_cases hlp : (trimSpace p.1).utf8ByteSize > maxInlineValueLength
    · have hE := mkEntry_long hash k p.2 hlp (hne _)
      have hfv : findValue kdbF (hash (trimSpace p.1)) = some (trimSpace p.1) :=
        findValue_of_mem hinj hWF (hmem p hp hlp)
      constructor
      · rw [hE]
        simp [resolveNext, hfv]
      · rw [hE]
        exact resolveVal_ref (by simpa using hne _) (by simpa using hfv)
    · have hE := mkEntry_short hash k p.2 hlp
      constructor
      · rw [hE]
        have hnv : ¬ (((⟨k, p.2, trimSpace p.1, ""⟩ : KVLog).val == "") = true) := by
          simpa using hnem p hp
        simp [resolveNext, hnv]
      · rw [hE]
        exact resolveVal_inline rfl
  have hmapres : (kdbF.kc.reverse).map (resolveNext kdbF) =
      ((ws.map (fun p => (⟨k, p.2, trimSpace p.1,
        (mkEntry hash k (trimSpace p.1) p.2).vid⟩ : KVLog))).reverse).map some := by
    rw [hkc, List.map_reverse, List.map_reverse, List.map_map, List.map_map]
    congr 1
    apply List.map_congr_left
    intro p hp
    exact (hres p hp).1
  have hit : GetIterator kdbF k = ⟨kdbF, kdbF.kc.reverse, none⟩ := by
    unfold GetIterator
    rw [hsortd]
  have hdrain : (GetIterator kdbF k).drain =
      ((ws.map (fun p => (⟨k, p.2, trimSpace p.1,
        (mkEntry hash k (trimSpace p.1) p.2).vid⟩ : KVLog))).reverse,
        ⟨kdbF, [], none⟩) := by
    rw [hit]
    show Iterator.drainAux (kdbF.kc.reverse).length ⟨kdbF, kdbF.kc.reverse, none⟩ = _
    exact drainAux_resolved _ _ _ _ hmapres
  refine ⟨?_, ?_, ?_, ?_⟩
  · rw [hdrain]
    simp [List.map_reverse, List.map_map]
  · rw [hdrain]
    simp [List.map_reverse, List.map_map]
  · rw [hdrain]
  · rw [hdrain, hsortd, hkc]
    simp only [List.map_reverse, List.map_map]
    congr 1
    apply List.map_congr_left
    intro p hp
    exact ((hres p hp).2).symm




theorem c1_witness : Get ⟨[⟨"k", 1, "hi", ""⟩], []⟩ "k" = .ok (trimSpace " hi ") :=
  c1_round_trip testHash_inj emptyKDB ⟨[⟨"k", 1, "hi", ""⟩], []⟩ "k" " hi " 1
    (by simp [emptyKDB]) (by simp [emptyKDB]) (by simp [emptyKDB])
    (fun h => absurd h (by decide)) (by decide)

theorem c1_counterexample :
    Set testHash (Set testHash emptyKDB "k" longA 1).state "k" "" 2 =
      .ok (Set testHash emptyKDB "k" longA 1).state ∧
    Get (Set testHash (Set testHash emptyKDB "k" longA 1).state "k" "" 2).state "k" =
      .ok longA ∧
    longA ≠ trimSpace "" := by
  refine ⟨by decide, by decide, by decide⟩

theorem c2_witness :
    Set testHash ⟨[⟨"k", 1, "a", ""⟩], []⟩ "k" "a" 2 = .ok ⟨[⟨"k", 1, "a", ""⟩], []⟩ ∧
    ((∀ e ∈ emptyKDB.kc, e.key ≠ "k") →
      ((⟨[⟨"k", 1, "a", ""⟩], []⟩ : KDB).kc.filter (fun e => e.key == "k")).length = 1) :=
  c2_set_idempotent 1 2 (by simp [emptyKDB]) (by decide)

theorem c3_witness :
    Set testHash emptyKDB "k1" longA 1 =
      .ok ⟨[⟨"k1", 1, "", testHash (trimSpace longA)⟩],
        [⟨testHash (trimSpace longA), trimSpace longA⟩]⟩ ∧
    Set testHash ⟨[⟨"k1", 1, "", testHash (trimSpace longA)⟩],
        [⟨testHash (trimSpace longA), trimSpace longA⟩]⟩ "k2" longA 2 =
      .ok ⟨[⟨"k1", 1, "", testHash (trimSpace longA)⟩,
          ⟨"k2", 2, "", testHash (trimSpace longA)⟩],
        [⟨testHash (trimSpace longA), trimSpace longA⟩]⟩ :=
  c3_content_dedup "k1" "k2" 1 2 (by decide) (by decide) (testHash_ne_empty _)




theorem c4_witness :
    (Set testHash emptyKDB "k" "a" 1).state.vc = emptyKDB.vc ∨
    (Set testHash emptyKDB "k" "a" 1).state.vc =
      emptyKDB.vc ++ [⟨testHash (trimSpace "a"), trimSpace "a"⟩] :=
  (c4_set_atomicity testHash emptyKDB "k" "a" 1).1

theorem c4_counterexample :
    Set testHash ⟨[⟨"k", 5, "x", ""⟩], []⟩ "k" longA 5 =
      .dupErr ⟨[⟨"k", 5, "x", ""⟩], [⟨testHash longA, longA⟩]⟩ ∧
    (⟨[⟨"k", 5, "x", ""⟩], []⟩ : KDB).vc = [] := ⟨by decide, rfl⟩

theorem c5_witness :
    Get ⟨[⟨"k", 1, "v1", ""⟩, ⟨"k", 2, "v2", ""⟩], []⟩ "k" = .ok (trimSpace "v2") :=
  (c5_get_latest testHash_inj emptyKDB "k").2.2 "v1" "v2" 1 2
    ⟨[⟨"k", 1, "v1", ""⟩], []⟩ ⟨[⟨"k", 1, "v1", ""⟩, ⟨"k", 2, "v2", ""⟩], []⟩
    (by decide) (by decide) (by decide) (by decide)

theorem c5_counterexample :
    Set testHash (Set testHash emptyKDB "k" longA 1).state "k" " " 2 =
      .ok (Set testHash emptyKDB "k" longA 1).state ∧
    Get (Set testHash emptyKDB "k" longA 1).state "k" = .ok longA ∧
    trimSpace " " = "" ∧ longA ≠ "" := ⟨by decide, by decide, by decide, by decide⟩

theorem c6_witness :
    GetAt ⟨[⟨"k", 1, "v1", ""⟩, ⟨"k", 5, "v2", ""⟩], []⟩ "k" 2 =
      resolveVal ⟨[⟨"k", 1, "v1", ""⟩, ⟨"k", 5, "v2", ""⟩], []⟩ ⟨"k", 5, "v2", ""⟩ :=
  (c6_getat_first_at_or_after ⟨[⟨"k", 1, "v1", ""⟩, ⟨"k", 5, "v2", ""⟩], []⟩ "k" 2).2
    ⟨"k", 5, "v2", ""⟩ (by decide) rfl (by decide) (by decide)

theorem c7_witness :
    (Set testHash emptyKDB "k" " a " 1).state.vc = emptyKDB.vc ∧
    (∀ kdb1, Set testHash emptyKDB "k" " a " 1 = .ok kdb1 →
      kdb1.kc = emptyKDB.kc ∨
      kdb1.kc = emptyKDB.kc ++ [⟨"k", 1, trimSpace " a ", ""⟩]) :=
  (c7_inline_threshold testHash emptyKDB "k" " a " 1).1 (by decide)

theorem c8_witness :
    ((GetIterator (⟨[⟨"k", 1, "b", ""⟩, ⟨"k", 2, "a", ""⟩], []⟩ : KDB) "k").drain).1.map
        KVLog.val =
      (([("b", 1), ("a", 2)] : List (String × Int)).map (fun p => trimSpace p.1)).reverse :=
  (c8_history_iteration testHash_inj testHash_ne_empty "k" [("b", 1), ("a", 2)]
    ⟨[⟨"k", 1, "b", ""⟩, ⟨"k", 2, "a", ""⟩], []⟩
    (by decide) (by decide) (by decide) (by decide)).1

theorem c8_counterexample :
    setList testHash emptyKDB "k" [("", 1)] = some ⟨[⟨"k", 1, "", ""⟩], []⟩ ∧
    (GetIterator ⟨[⟨"k", 1, "", ""⟩], []⟩ "k").drain =
      ([], ⟨⟨[⟨"k", 1, "", ""⟩], []⟩, [], some .notFound⟩) := ⟨by decide, by decide⟩

theorem c9_witness :
    Set testHash emptyKDB "k" " " 1 = .ok ⟨[⟨"k", 1, "", ""⟩], []⟩ ∧
    Get ⟨[⟨"k", 1, "", ""⟩], []⟩ "k" = .ok "" ∧
    (GetIterator ⟨[⟨"k", 1, "", ""⟩], []⟩ "k").next =
      (none, ⟨⟨[⟨"k", 1, "", ""⟩], []⟩, [], some .notFound⟩) :=
  c9_iterator_empty_inline emptyKDB "k" " " 1 (by decide)
    (by simp [emptyKDB]) (by decide)

theorem c10_witness :
    (setList testHash emptyKDB "k" [("x", 1), ("y", 2), ("x", 3)]).isSome ∧
    ∀ kdbF, setList testHash emptyKDB "k" [("x", 1), ("y", 2), ("x", 3)] = some kdbF →
      kdbF.kc = [mkEntry testHash "k" (trimSpace "x") 1,
        mkEntry testHash "k" (trimSpace "y") 2, mkEntry testHash "k" (trimSpace "x") 3] :=
  c10_dedup_latest_only testHash_inj testHash_ne_empty "k" "x" "y" 1 2 3
    (by decide) (by decide) (by decide) (by decide) (by decide)

theorem c10_counterexample :
    setList testHash emptyKDB "k" [("", 1), (longA, 2), ("", 3)] =
      some ⟨[⟨"k", 1, "", ""⟩, ⟨"k", 2, "", testHash longA⟩],
        [⟨testHash longA, longA⟩]⟩ ∧
    ("" : String) ≠ longA := ⟨by decide, by decide⟩


end KVLogModel
